import Mathlib

/-!
Shallow embedding of `src/lib/anc_masc_ptb_extract.py`.

The script reads bracketed parse trees with NLTK, converts each tree to
Chomsky Normal Form, and tallies production rules:

  - sentences whose root label is `'CODE'` are skipped (line 13);
  - the per-sentence work (lines 14-30) is wrapped in `try/except Exception:
    pass`: an exception raised anywhere inside — by `chomsky_normal_form()`,
    by `productions()`, or by a `unicode_repr()` call in the middle of the
    production loop — is swallowed, and processing moves to the next
    sentence.  Mutations of `terminal` / `binary` performed before the
    exception persist;
  - a lexical production's repr is added to the set `terminal` (line 18);
  - a non-lexical production is counted in the nested dict
    `binary[lhs][rule]` (lines 21-28);
  - lines 32-42 print a "TERMINALS" section, a blank line, and a
    "BINARIES" section whose lines carry `rule, count / num_rules`.

NLTK objects are modelled abstractly: a production is the triple of data
the script reads off it (`is_lexical()`, `lhs().unicode_repr()`,
`unicode_repr()`).  A sentence is modelled by the observable trace of its
processing: its root label, the list of productions whose loop body ran to
completion, and whether an exception then aborted the rest of the `try`
block (a `chomsky_normal_form` failure is the trace with no production
processed and `aborted = true`).  The two nested `for` loops over file ids
and sentences are flattened into one list of sentences, processed in order.
Python 2 floats are modelled by exact rationals.
-/

namespace AncPtb

/-- What the script observes of one `nltk.grammar.Production` `p`:
`p.is_lexical()`, `p.lhs().unicode_repr()` and `p.unicode_repr()`. -/
structure Production where
  isLexical : Bool
  lhsRepr : String
  ruleRepr : String
deriving DecidableEq, Repr

/-- Observable trace of one parsed sentence inside the loop of lines 12-30:
`label` is `sent.label()`; `processed` are the productions whose loop body
(lines 17-28) ran to completion, in order; `aborted` records whether an
exception then cut the `try` block short (so for an `aborted` sentence,
`processed` is only a prefix of the productions of the converted tree, empty
when `chomsky_normal_form()` itself raised). -/
structure Sentence where
  label : String
  processed : List Production
  aborted : Bool
deriving DecidableEq, Repr

/-- The accumulator state of the counting pass: the set `terminal` (line 9,
modelled as a duplicate-free list) and the nested dict `binary` (line 10,
modelled as association lists in insertion order). -/
structure GState where
  terminal : List String
  binary : List (String × List (String × Nat))
deriving DecidableEq, Repr

/-- Dict / set membership and lookup: `k in d` and `d[k]`. -/
def lookupK (k : String) : List (String × α) → Option α
  | [] => none
  | (k', v) :: rest => if k' = k then some v else lookupK k rest

/-- Dict store `d[k] = v`: overwrite in place if the key is present,
append otherwise. -/
def setK (k : String) (v : α) : List (String × α) → List (String × α)
  | [] => [(k, v)]
  | (k', v') :: rest => if k' = k then (k, v) :: rest else (k', v') :: setK k v rest

/-- Set insertion `terminal.add(r)`: no effect when already present. -/
def insertT (ts : List String) (r : String) : List String :=
  if r ∈ ts then ts else ts ++ [r]

/-- Lines 25-28: `binary[lhs][rule] = 1` when the rule is absent from the
inner dict, `binary[lhs][rule] += 1` otherwise. -/
def bumpRule (rules : List (String × Nat)) (rule : String) : List (String × Nat) :=
  match lookupK rule rules with
  | none => setK rule 1 rules
  | some c => setK rule (c + 1) rules

/-- Loop body for one production `p` (lines 17-28): a lexical production is
added to `terminal`; otherwise `binary[lhs]` (freshly `dict()` when the lhs
is absent, lines 23-24) has the rule's count created or incremented. -/
def applyProd (st : GState) (p : Production) : GState :=
  if p.isLexical then
    { st with terminal := insertT st.terminal p.ruleRepr }
  else
    { st with binary := setK p.lhsRepr (bumpRule ((lookupK p.lhsRepr st.binary).getD []) p.ruleRepr) st.binary }

/-- One sentence (lines 13-30): a root label `'CODE'` skips the sentence;
otherwise the productions that were processed before any exception are
applied in order, and a trailing exception is swallowed (the `aborted` flag
has no effect on the state). -/
def processSent (st : GState) (s : Sentence) : GState :=
  if s.label = "CODE" then st else s.processed.foldl applyProd st

/-- Initial accumulators of lines 9-10. -/
def initState : GState := ⟨[], []⟩

/-- The whole counting pass (lines 9-30) over the flattened sentence list. -/
def extractPass (sents : List Sentence) : GState :=
  sents.foldl processSent initState

/-- `sum([x for x in rules.itervalues()])` (line 39). -/
def sumCounts (rules : List (String × Nat)) : Nat :=
  (rules.map (fun rc => rc.2)).sum

/-- One line of standard output: a printed string, the bare `print` of
line 35, or a `print rule, freq` of line 42 with the frequency kept exact. -/
inductive OutLine where
  | text (s : String)
  | blank
  | ruleFreq (rule : String) (freq : ℚ)
deriving DecidableEq

/-- Lines produced by `print "\n".join(terminal)` (line 33): one line per
element, and a single empty line when the set is empty. -/
def joinedLines (ts : List String) : List OutLine :=
  match ts with
  | [] => [OutLine.text ""]
  | _ => ts.map OutLine.text

/-- Lines of the BINARIES section (lines 38-42): for each stored lhs, one
line per stored rule, carrying the rule and `count / num_rules`. -/
def binLines : List (String × List (String × Nat)) → List OutLine
  | [] => []
  | (_, rules) :: rest =>
      rules.map (fun rc => OutLine.ruleFreq rc.1 ((rc.2 : ℚ) / (sumCounts rules : ℚ)))
        ++ binLines rest

/-- Everything printed by lines 32-42, in order. -/
def outputLines (st : GState) : List OutLine :=
  OutLine.text "TERMINALS" :: joinedLines st.terminal
    ++ OutLine.blank :: OutLine.text "BINARIES" :: binLines st.binary

/-- Line 46: `path = sys.argv[1] if len(sys.argv) > 1 else './'` where
`argv.head?` is the program name. -/
def resolvePath (argv : List String) : String :=
  if h : 1 < argv.length then argv.get ⟨1, h⟩ else "./"

/-- The count (0 when absent) stored at `binary[k][r]`. -/
def getCount (st : GState) (k r : String) : Nat :=
  match lookupK k st.binary with
  | none => 0
  | some rules => (lookupK r rules).getD 0

/-- Whether production `p` is a non-lexical occurrence of rule `r` with
left-hand side `k`. -/
def prodMatches (k r : String) (p : Production) : Prop :=
  p.isLexical = false ∧ p.lhsRepr = k ∧ p.ruleRepr = r

instance (k r : String) (p : Production) : Decidable (prodMatches k r p) :=
  inferInstanceAs (Decidable (_ ∧ _ ∧ _))

/-- Number of occurrences matching `(k, r)` in a production list. -/
def countMatches (k r : String) : List Production → Nat
  | [] => 0
  | p :: ps => (if prodMatches k r p then 1 else 0) + countMatches k r ps

/-- The productions of `s` whose loop body actually ran (none for a
`'CODE'`-labelled sentence). -/
def processedProds (s : Sentence) : List Production :=
  if s.label = "CODE" then [] else s.processed

/-- All production occurrences processed across a run, in order. -/
def allProds : List Sentence → List Production
  | [] => []
  | s :: rest => processedProds s ++ allProds rest

/-- Occurrences of non-lexical rule `r` under lhs `k` across all processed
productions of the run. -/
def countOcc (sents : List Sentence) (k r : String) : Nat :=
  countMatches k r (allProds sents)

/-- Modelled from the spec wording of C4 ("across all successfully
processed sentences"): occurrences counted only over sentences that were
fully processed without an exception. -/
def specCountOcc (sents : List Sentence) (k r : String) : Nat :=
  countMatches k r (allProds (sents.filter (fun s => !s.aborted)))

/-- Every lhs entry of the nested dict has a non-empty inner dict whose
counts are all at least 1. -/
def InvB (b : List (String × List (String × Nat))) : Prop :=
  ∀ e ∈ b, e.2 ≠ [] ∧ ∀ rc ∈ e.2, 1 ≤ rc.2

/-! ### Concrete runs used to witness the theorems -/

/-- A non-lexical production occurrence `A -> B C`. -/
def pA1 : Production := ⟨false, "A", "A -> B C"⟩

/-- A non-lexical production occurrence `A -> B D`. -/
def pA2 : Production := ⟨false, "A", "A -> B D"⟩

/-- A lexical production occurrence `N -> dog`. -/
def pLex : Production := ⟨true, "N", "N -> dog"⟩

/-- A fully processed sentence with three non-lexical occurrences. -/
def sent0 : Sentence := ⟨"S", [pA1, pA2, pA1], false⟩

/-- A run consisting of the single sentence `sent0`. -/
def sents0 : List Sentence := [sent0]

/-- The inner dict accumulated for lhs `A` by `sents0`. -/
def rules0 : List (String × Nat) := [("A -> B C", 2), ("A -> B D", 1)]

/-- A sentence aborted by an exception after one lexical production was
processed (e.g. a `unicode_repr()` failure on the next production). -/
def sentAbort : Sentence := ⟨"S", [pLex], true⟩

/-- A sentence aborted by an exception after one non-lexical production was
processed. -/
def sentAbortBin : Sentence := ⟨"S", [pA1], true⟩

/-- A sentence whose `chomsky_normal_form()` call raised: nothing was
processed. -/
def sentNormFail : Sentence := ⟨"S", [], true⟩

/-- A `'CODE'`-labelled parse tree: line 13 skips it entirely. -/
def sentCODE : Sentence := ⟨"CODE", [pA1], false⟩

/-- A fully processed sentence with both a lexical and a non-lexical
occurrence. -/
def sentsMix : List Sentence := [⟨"S", [pLex, pA1], false⟩]

/-! ### Association-list lemmas -/

theorem lookupK_setK_self (k : String) (v : α) (l : List (String × α)) :
    lookupK k (setK k v l) = some v := by
  induction l with
  | nil => simp [setK, lookupK]
  | cons e rest ih =>
      by_cases h : e.1 = k
      · simp [setK, h, lookupK]
      · simp [setK, h, lookupK, ih]

theorem lookupK_setK_ne (k k' : String) (v : α) (l : List (String × α))
    (h : k' ≠ k) : lookupK k' (setK k v l) = lookupK k' l := by
  have h1 : ¬k = k' := fun hh => h hh.symm
  induction l with
  | nil => simp [setK, lookupK, h1]
  | cons e rest ih =>
      by_cases he : e.1 = k
      · have h2 : ¬e.1 = k' := by rw [he]; exact h1
        simp [setK, he, lookupK, h1, h2]
      · by_cases he' : e.1 = k'
        · simp [setK, he, lookupK, he', h]
        · simp [setK, he, lookupK, he', ih]

theorem mem_setK (k : String) (v : α) (l : List (String × α)) (e : String × α)
    (h : e ∈ setK k v l) : e = (k, v) ∨ e ∈ l := by
  induction l with
  | nil => simpa [setK] using h
  | cons e' rest ih =>
      by_cases he : e'.1 = k
      · simp only [setK, he, if_true] at h
        rcases List.mem_cons.mp h with h | h
        · exact Or.inl h
        · exact Or.inr (List.mem_cons_of_mem _ h)
      · simp only [setK, he, if_false] at h
        rcases List.mem_cons.mp h with h | h
        · exact Or.inr (h ▸ List.mem_cons_self _ _)
        · rcases ih h with h | h
          · exact Or.inl h
          · exact Or.inr (List.mem_cons_of_mem _ h)

theorem setK_ne_nil (k : String) (v : α) (l : List (String × α)) :
    setK k v l ≠ [] := by
  cases l with
  | nil => simp [setK]
  | cons e rest =>
      by_cases he : e.1 = k <;> simp [setK, he]

theorem lookupK_mem (k : String) (v : α) (l : List (String × α))
    (h : lookupK k l = some v) : (k, v) ∈ l := by
  induction l with
  | nil => simp [lookupK] at h
  | cons e rest ih =>
      by_cases he : e.1 = k
      · simp only [lookupK, he, if_true, Option.some.injEq] at h
        subst he; subst h
        exact List.mem_cons_self _ _
      · simp only [lookupK, he, if_false] at h
        exact List.mem_cons_of_mem _ (ih h)

/-! ### Counting lemmas -/

theorem getCount_eq (st : GState) (k r : String) :
    getCount st k r = (lookupK r ((lookupK k st.binary).getD [])).getD 0 := by
  cases h : lookupK k st.binary <;> simp [getCount, h, lookupK]

theorem lookupK_bumpRule_self (rules : List (String × Nat)) (r : String) :
    lookupK r (bumpRule rules r) = some ((lookupK r rules).getD 0 + 1) := by
  cases h : lookupK r rules <;> simp [bumpRule, h, lookupK_setK_self]

theorem lookupK_bumpRule_ne (rules : List (String × Nat)) (r r' : String)
    (h : r' ≠ r) : lookupK r' (bumpRule rules r) = lookupK r' rules := by
  cases hl : lookupK r rules <;> simp [bumpRule, hl, lookupK_setK_ne _ _ _ _ h]

theorem bumpRule_ne_nil (rules : List (String × Nat)) (r : String) :
    bumpRule rules r ≠ [] := by
  cases hl : lookupK r rules <;> simp [bumpRule, hl, setK_ne_nil]

theorem mem_bumpRule (rules : List (String × Nat)) (r : String) (e : String × Nat)
    (h : e ∈ bumpRule rules r) : (∃ c, e = (r, c) ∧ 1 ≤ c) ∨ e ∈ rules := by
  cases hl : lookupK r rules with
  | none =>
      simp only [bumpRule, hl] at h
      rcases mem_setK _ _ _ _ h with h | h
      · exact Or.inl ⟨1, h, le_refl 1⟩
      · exact Or.inr h
  | some c =>
      simp only [bumpRule, hl] at h
      rcases mem_setK _ _ _ _ h with h | h
      · exact Or.inl ⟨c + 1, h, Nat.succ_le_succ (Nat.zero_le c)⟩
      · exact Or.inr h

theorem getCount_applyProd (st : GState) (p : Production) (k r : String) :
    getCount (applyProd st p) k r =
      getCount st k r + (if prodMatches k r p then 1 else 0) := by
  by_cases hl : p.isLexical
  · have hm : ¬prodMatches k r p := fun hm => by
      rw [hm.1] at hl; exact Bool.false_ne_true hl
    simp [applyProd, hl, getCount, if_neg hm]
  · have hl' : p.isLexical = false := by simpa using hl
    rcases eq_or_ne k p.lhsRepr with hk | hk
    · subst hk
      rw [getCount_eq, getCount_eq]
      simp only [applyProd, hl', Bool.false_eq_true, if_false]
      rw [lookupK_setK_self]
      simp only [Option.getD_some]
      rcases eq_or_ne r p.ruleRepr with hr | hr
      · subst hr
        rw [lookupK_bumpRule_self, if_pos ⟨hl', rfl, rfl⟩]
        simp
      · rw [lookupK_bumpRule_ne _ _ _ hr, if_neg (fun hm => hr hm.2.2.symm)]
        simp
    · rw [getCount_eq, getCount_eq]
      simp only [applyProd, hl', Bool.false_eq_true, if_false]
      rw [lookupK_setK_ne _ _ _ _ hk, if_neg (fun hm => hk hm.2.1.symm)]
      simp

theorem getCount_foldl (prods : List Production) (st : GState) (k r : String) :
    getCount (prods.foldl applyProd st) k r =
      getCount st k r + countMatches k r prods := by
  induction prods generalizing st with
  | nil => simp [countMatches]
  | cons p ps ih =>
      simp only [List.foldl_cons, countMatches, ih, getCount_applyProd]
      omega

theorem processSent_eq_foldl (st : GState) (s : Sentence) :
    processSent st s = (processedProds s).foldl applyProd st := by
  by_cases h : s.label = "CODE" <;> simp [processSent, processedProds, h]

theorem countMatches_append (k r : String) (l1 l2 : List Production) :
    countMatches k r (l1 ++ l2) = countMatches k r l1 + countMatches k r l2 := by
  induction l1 with
  | nil => simp [countMatches]
  | cons p ps ih => simp [countMatches, ih]; omega

theorem getCount_foldl_sents (sents : List Sentence) (st : GState) (k r : String) :
    getCount (sents.foldl processSent st) k r =
      getCount st k r + countMatches k r (allProds sents) := by
  induction sents generalizing st with
  | nil => simp [allProds, countMatches]
  | cons s rest ih =>
      simp only [List.foldl_cons, ih, allProds, countMatches_append,
        processSent_eq_foldl, getCount_foldl]
      omega

theorem getCount_extract (sents : List Sentence) (k r : String) :
    getCount (extractPass sents) k r = countOcc sents k r := by
  have h := getCount_foldl_sents sents initState k r
  simpa [extractPass, countOcc, getCount, initState, lookupK] using h

/-! ### Terminal-set lemmas -/

theorem mem_insertT (ts : List String) (r t : String) :
    t ∈ insertT ts r ↔ t ∈ ts ∨ t = r := by
  by_cases h : r ∈ ts
  · simp only [insertT, h, if_true]
    constructor
    · exact Or.inl
    · rintro (h' | rfl)
      · exact h'
      · exact h
  · simp [insertT, h, List.mem_append]

theorem terminal_applyProd (st : GState) (p : Production) (t : String) :
    t ∈ (applyProd st p).terminal ↔
      t ∈ st.terminal ∨ (p.isLexical = true ∧ p.ruleRepr = t) := by
  by_cases hl : p.isLexical
  · simp only [applyProd, hl, if_true, mem_insertT]
    simp [hl, eq_comm]
  · have hl' : p.isLexical = false := by simpa using hl
    simp [applyProd, hl', hl]

theorem terminal_foldl (prods : List Production) (st : GState) (t : String) :
    t ∈ (prods.foldl applyProd st).terminal ↔
      t ∈ st.terminal ∨ ∃ p, p ∈ prods ∧ p.isLexical = true ∧ p.ruleRepr = t := by
  induction prods generalizing st with
  | nil => simp
  | cons p ps ih =>
      simp only [List.foldl_cons, ih, terminal_applyProd, List.mem_cons]
      constructor
      · rintro ((h | ⟨h1, h2⟩) | ⟨q, hq, hq2⟩)
        · exact Or.inl h
        · exact Or.inr ⟨p, Or.inl rfl, h1, h2⟩
        · exact Or.inr ⟨q, Or.inr hq, hq2⟩
      · rintro (h | ⟨q, hq | hq, hq2⟩)
        · exact Or.inl (Or.inl h)
        · exact Or.inl (Or.inr (hq ▸ hq2))
        · exact Or.inr ⟨q, hq, hq2⟩

theorem terminal_foldl_sents (sents : List Sentence) (st : GState) (t : String) :
    t ∈ (sents.foldl processSent st).terminal ↔
      t ∈ st.terminal ∨ ∃ p, p ∈ allProds sents ∧ p.isLexical = true ∧ p.ruleRepr = t := by
  induction sents generalizing st with
  | nil => simp [allProds]
  | cons s rest ih =>
      simp only [List.foldl_cons, ih, processSent_eq_foldl, terminal_foldl,
        allProds, List.mem_append]
      constructor
      · rintro ((h | ⟨q, hq, hq2⟩) | ⟨q, hq, hq2⟩)
        · exact Or.inl h
        · exact Or.inr ⟨q, Or.inl hq, hq2⟩
        · exact Or.inr ⟨q, Or.inr hq, hq2⟩
      · rintro (h | ⟨q, hq | hq, hq2⟩)
        · exact Or.inl (Or.inl h)
        · exact Or.inl (Or.inr ⟨q, hq, hq2⟩)
        · exact Or.inr ⟨q, hq, hq2⟩

theorem terminal_extract (sents : List Sentence) (t : String) :
    t ∈ (extractPass sents).terminal ↔
      ∃ p, p ∈ allProds sents ∧ p.isLexical = true ∧ p.ruleRepr = t := by
  have h := terminal_foldl_sents sents initState t
  simpa [extractPass, initState] using h

/-! ### The binary-map invariant -/

theorem invB_applyProd (st : GState) (p : Production) (h : InvB st.binary) :
    InvB (applyProd st p).binary := by
  by_cases hl : p.isLexical
  · simpa [applyProd, hl] using h
  · have hl' : p.isLexical = false := by simpa using hl
    simp only [applyProd, hl', Bool.false_eq_true, if_false]
    intro e he
    rcases mem_setK _ _ _ _ he with he | he
    · subst he
      refine ⟨bumpRule_ne_nil _ _, ?_⟩
      intro rc hrc
      rcases mem_bumpRule _ _ _ hrc with ⟨c, hc, hc1⟩ | hmem
      · subst hc; exact hc1
      · cases hb : lookupK p.lhsRepr st.binary with
        | none => rw [hb] at hmem; simp at hmem
        | some rules =>
            rw [hb] at hmem
            simp only [Option.getD_some] at hmem
            exact (h _ (lookupK_mem _ _ _ hb)).2 rc hmem
    · exact h e he

theorem invB_foldl (prods : List Production) (st : GState) (h : InvB st.binary) :
    InvB ((prods.foldl applyProd st).binary) := by
  induction prods generalizing st with
  | nil => exact h
  | cons p ps ih => exact ih _ (invB_applyProd st p h)

theorem invB_foldl_sents (sents : List Sentence) (st : GState) (h : InvB st.binary) :
    InvB ((sents.foldl processSent st).binary) := by
  induction sents generalizing st with
  | nil => exact h
  | cons s rest ih =>
      refine ih _ ?_
      rw [processSent_eq_foldl]
      exact invB_foldl _ _ h

theorem invB_extract (sents : List Sentence) : InvB (extractPass sents).binary := by
  refine invB_foldl_sents sents initState ?_
  intro e he
  simp [initState] at he

/-! ### Rational frequency lemmas -/

theorem sumCounts_cons (rc : String × Nat) (rest : List (String × Nat)) :
    sumCounts (rc :: rest) = rc.2 + sumCounts rest := by
  simp [sumCounts]

theorem one_le_sumCounts (rules : List (String × Nat)) (hne : rules ≠ [])
    (h : ∀ rc ∈ rules, 1 ≤ rc.2) : 1 ≤ sumCounts rules := by
  cases rules with
  | nil => exact absurd rfl hne
  | cons rc rest =>
      have h1 := h rc (List.mem_cons_self _ _)
      rw [sumCounts_cons]
      omega

theorem sum_map_div (rules : List (String × Nat)) (S : ℚ) :
    (rules.map (fun rc => (rc.2 : ℚ) / S)).sum = (sumCounts rules : ℚ) / S := by
  induction rules with
  | nil => simp [sumCounts]
  | cons rc rest ih =>
      rw [List.map_cons, List.sum_cons, ih, sumCounts_cons, div_add_div_same]
      push_cast
      ring_nf

theorem countMatches_pos (k r : String) (l : List Production) (p : Production)
    (hp : p ∈ l) (hm : prodMatches k r p) : 1 ≤ countMatches k r l := by
  induction l with
  | nil => simp at hp
  | cons q rest ih =>
      rcases List.mem_cons.mp hp with rfl | hp'
      · rw [countMatches, if_pos hm]
        omega
      · rw [countMatches]
        have := ih hp'
        omega

/-! ### Output-shape lemmas -/

theorem binLines_length (b : List (String × List (String × Nat))) :
    (binLines b).length = (b.map (fun e => e.2.length)).sum := by
  induction b with
  | nil => simp [binLines]
  | cons e rest ih => simp [binLines, ih]

theorem joinedLines_text (ts : List String) (l : OutLine) (h : l ∈ joinedLines ts) :
    ∃ s, l = OutLine.text s := by
  cases ts with
  | nil => exact ⟨"", by simpa [joinedLines] using h⟩
  | cons a rest =>
      simp only [joinedLines, List.map_cons, List.mem_cons, List.mem_map] at h
      rcases h with h' | ⟨s, _, hs⟩
      · exact ⟨a, h'⟩
      · exact ⟨s, hs.symm⟩

theorem binLines_shape (b : List (String × List (String × Nat))) (l : OutLine)
    (h : l ∈ binLines b) : ∃ rule freq, l = OutLine.ruleFreq rule freq := by
  induction b with
  | nil => simp [binLines] at h
  | cons e rest ih =>
      simp only [binLines, List.mem_append, List.mem_map] at h
      rcases h with ⟨rc, _, hrc⟩ | h'
      · exact ⟨rc.1, (rc.2 : ℚ) / (sumCounts e.2 : ℚ), hrc.symm⟩
      · exact ih h'

/-! ### Claim theorems -/

/-- C1: for every left-hand-side symbol present in the binary-production map
after the counting pass, the relative frequencies reported for its rules
(each count divided by the per-lhs total, in exact rational arithmetic) sum
exactly to 1. -/
theorem c1_freq_sum_one (sents : List Sentence) (lhs : String)
    (rules : List (String × Nat))
    (h : lookupK lhs (extractPass sents).binary = some rules) :
    (rules.map (fun rc => (rc.2 : ℚ) / (sumCounts rules : ℚ))).sum = 1 := by
  have hinv := invB_extract sents _ (lookupK_mem _ _ _ h)
  have h1 : 1 ≤ sumCounts rules := one_le_sumCounts _ hinv.1 hinv.2
  have hS : (sumCounts rules : ℚ) ≠ 0 := by
    have : sumCounts rules ≠ 0 := by omega
    exact_mod_cast this
  rw [sum_map_div, div_self hS]

/-- Witness for C1 at the concrete run `sents0`. -/
theorem c1_freq_sum_one_witness :
    lookupK "A" (extractPass sents0).binary = some rules0 ∧
    (rules0.map (fun rc => (rc.2 : ℚ) / (sumCounts rules0 : ℚ))).sum = 1 :=
  ⟨rfl, c1_freq_sum_one sents0 "A" rules0 rfl⟩

/-- C5: the command line takes one positional argument, the corpus root
path, and defaults to `./` when no argument is given (`argv` starts with
the program name). -/
theorem c5_cli_argument (prog p : String) (rest : List String) :
    resolvePath [prog] = "./" ∧ resolvePath (prog :: p :: rest) = p := by
  constructor
  · rfl
  · unfold resolvePath
    rw [dif_pos (by simp only [List.length_cons]; omega)]
    rfl

/-- C8: for every lhs key present in the binary map after the counting
pass, the inner rule dict is non-empty, every stored count is at least 1,
and the per-key total of counts is at least 1, so the frequency divisions
never divide by zero. -/
theorem c8_no_div_by_zero (sents : List Sentence) (lhs : String)
    (rules : List (String × Nat))
    (h : lookupK lhs (extractPass sents).binary = some rules) :
    rules ≠ [] ∧ (∀ rc ∈ rules, 1 ≤ rc.2) ∧ 1 ≤ sumCounts rules := by
  have hinv := invB_extract sents _ (lookupK_mem _ _ _ h)
  exact ⟨hinv.1, hinv.2, one_le_sumCounts _ hinv.1 hinv.2⟩

/-- Witness for C8 at the concrete run `sents0`. -/
theorem c8_no_div_by_zero_witness :
    rules0 ≠ [] ∧ (∀ rc ∈ rules0, 1 ≤ rc.2) ∧ 1 ≤ sumCounts rules0 :=
  c8_no_div_by_zero sents0 "A" rules0 rfl

/-- C9: a lexical production occurrence only adds its repr to the terminal
set and leaves the binary map unchanged; a non-lexical occurrence leaves
the terminal set unchanged, leaves every other lhs entry of the binary map
unchanged, and increments its own count by one. -/
theorem c9_frame_effect (st : GState) (p : Production) :
    (p.isLexical = true →
      (applyProd st p).binary = st.binary ∧
      ∀ t, t ∈ (applyProd st p).terminal ↔ t ∈ st.terminal ∨ t = p.ruleRepr) ∧
    (p.isLexical = false →
      (applyProd st p).terminal = st.terminal ∧
      (∀ k, k ≠ p.lhsRepr → lookupK k (applyProd st p).binary = lookupK k st.binary) ∧
      getCount (applyProd st p) p.lhsRepr p.ruleRepr =
        getCount st p.lhsRepr p.ruleRepr + 1) := by
  constructor
  · intro hl
    refine ⟨by simp [applyProd, hl], fun t => ?_⟩
    simp [applyProd, hl, mem_insertT]
  · intro hl
    refine ⟨by simp [applyProd, hl], fun k hk => ?_, ?_⟩
    · simp only [applyProd, hl, Bool.false_eq_true, if_false]
      exact lookupK_setK_ne _ _ _ _ hk
    · rw [getCount_applyProd, if_pos ⟨hl, rfl, rfl⟩]

/-- Witness for C9: a lexical occurrence leaves the binary map unchanged
and a non-lexical occurrence leaves the terminal set unchanged. -/
theorem c9_frame_effect_witness :
    (applyProd initState pLex).binary = initState.binary ∧
    (applyProd initState pA1).terminal = initState.terminal :=
  ⟨((c9_frame_effect initState pLex).1 rfl).1, ((c9_frame_effect initState pA1).2 rfl).1⟩

/-- C10: the extraction pass is deterministic: two runs over the same
sequence of parsed sentences yield equal accumulator states and equal
output. -/
theorem c10_deterministic (sents1 sents2 : List Sentence) (h : sents1 = sents2) :
    extractPass sents1 = extractPass sents2 ∧
    outputLines (extractPass sents1) = outputLines (extractPass sents2) := by
  subst h
  exact ⟨rfl, rfl⟩

/-- Witness for C10 at the concrete run `sents0`. -/
theorem c10_deterministic_witness :
    extractPass sents0 = extractPass sents0 ∧
    outputLines (extractPass sents0) = outputLines (extractPass sents0) :=
  c10_deterministic sents0 sents0 rfl

/-- C2 counterexample: a sentence aborted by an exception raised during
production processing (after one lexical production was processed) is not
skipped whole — its already-processed production remains in the terminal
set, so the accumulators are not left unchanged by the failing sentence. -/
theorem c2_counterexample :
    sentAbort.aborted = true ∧ sentAbort.label ≠ "CODE" ∧
    (extractPass [sentAbort]).terminal = ["N -> dog"] ∧
    (extractPass [sentAbort]).terminal ≠ initState.terminal := by
  refine ⟨rfl, ?_, rfl, ?_⟩ <;> decide

/-- C2 (amended): a per-sentence exception is silently swallowed — the
resulting state never depends on whether the sentence aborted, so no error
propagates — and when the exception struck before any production was
processed (e.g. inside `chomsky_normal_form()`), the sentence contributes
nothing and the accumulators are unchanged; productions processed before a
later exception keep their effects. -/
theorem c2_exception_swallowed (st : GState) (s : Sentence) :
    processSent st s = processSent st { s with aborted := false } ∧
    (s.processed = [] → processSent st s = st) := by
  constructor
  · by_cases h : s.label = "CODE" <;> simp [processSent, h]
  · intro hp
    by_cases h : s.label = "CODE" <;> simp [processSent, h, hp]

/-- Witness for C2 (amended): a sentence whose normalization raised leaves
the state unchanged. -/
theorem c2_exception_swallowed_witness :
    processSent initState sentNormFail = initState :=
  (c2_exception_swallowed initState sentNormFail).2 rfl

/-- C3 counterexample: a parse tree read from the corpus whose root label
is `'CODE'` is exempt — despite carrying a production, it is skipped and
the state stays at its initial value, so nothing of it is converted or
tallied. -/
theorem c3_counterexample :
    sentCODE.processed ≠ [] ∧ sentCODE.aborted = false ∧
    extractPass [sentCODE] = initState := by
  refine ⟨?_, rfl, ?_⟩ <;> decide

/-- C3 (amended): every parse tree whose root label is not `'CODE'` is
processed: the productions of its converted form that were reached before
any exception are tallied in order — each lexical one ends up in the
terminal set and each non-lexical one is counted at least once. -/
theorem c3_non_code_tallied (st : GState) (s : Sentence) (h : s.label ≠ "CODE") :
    processSent st s = s.processed.foldl applyProd st ∧
    ∀ p ∈ s.processed,
      (p.isLexical = true → p.ruleRepr ∈ (processSent st s).terminal) ∧
      (p.isLexical = false →
        1 ≤ getCount (processSent st s) p.lhsRepr p.ruleRepr) := by
  have heq : processSent st s = s.processed.foldl applyProd st := by
    simp [processSent, h]
  refine ⟨heq, fun p hp => ⟨fun hl => ?_, fun hl => ?_⟩⟩
  · rw [heq, terminal_foldl]
    exact Or.inr ⟨p, hp, hl, rfl⟩
  · rw [heq, getCount_foldl]
    have := countMatches_pos p.lhsRepr p.ruleRepr s.processed p hp ⟨hl, rfl, rfl⟩
    omega

/-- Witness for C3 (amended) at the concrete sentence `sent0`. -/
theorem c3_non_code_tallied_witness :
    processSent initState sent0 = sent0.processed.foldl applyProd initState ∧
    ∀ p ∈ sent0.processed,
      (p.isLexical = true → p.ruleRepr ∈ (processSent initState sent0).terminal) ∧
      (p.isLexical = false →
        1 ≤ getCount (processSent initState sent0) p.lhsRepr p.ruleRepr) :=
  c3_non_code_tallied initState sent0 (by decide)

/-- C4 counterexample: after a run whose only sentence aborted mid-loop,
the binary map stores count 1 for the occurrence processed before the
exception, yet no sentence was successfully processed, so the stored count
differs from the count over successfully processed sentences. -/
theorem c4_counterexample :
    sentAbortBin.aborted = true ∧
    getCount (extractPass [sentAbortBin]) "A" "A -> B C" = 1 ∧
    specCountOcc [sentAbortBin] "A" "A -> B C" = 0 := by
  refine ⟨rfl, ?_, ?_⟩ <;> decide

/-- C4 (amended): every count stored at `binary[k][r]` equals the number of
non-lexical occurrences with lhs repr `k` and rule repr `r` across all
processed production occurrences (including those of sentences later
aborted by an exception), and is at least 1; the terminal accumulator is
exactly the set of reprs of the lexical occurrences processed. -/
theorem c4_state_characterization (sents : List Sentence) (k r : String)
    (rules : List (String × Nat)) (c : Nat)
    (hk : lookupK k (extractPass sents).binary = some rules)
    (hr : lookupK r rules = some c) :
    c = countOcc sents k r ∧ 1 ≤ c ∧
    ∀ t, t ∈ (extractPass sents).terminal ↔
      ∃ p, p ∈ allProds sents ∧ p.isLexical = true ∧ p.ruleRepr = t := by
  have hc : getCount (extractPass sents) k r = c := by
    simp [getCount, hk, hr]
  have h1 : 1 ≤ c :=
    (invB_extract sents _ (lookupK_mem _ _ _ hk)).2 _ (lookupK_mem _ _ _ hr)
  exact ⟨by rw [← hc, getCount_extract], h1, fun t => terminal_extract sents t⟩

/-- Witness for C4 (amended) at the concrete run `sents0`. -/
theorem c4_state_characterization_witness :
    lookupK "A" (extractPass sents0).binary = some rules0 ∧
    lookupK "A -> B C" rules0 = some 2 ∧
    (2 = countOcc sents0 "A" "A -> B C" ∧ 1 ≤ 2 ∧
      ∀ t, t ∈ (extractPass sents0).terminal ↔
        ∃ p, p ∈ allProds sents0 ∧ p.isLexical = true ∧ p.ruleRepr = t) :=
  ⟨rfl, rfl, c4_state_characterization sents0 "A" "A -> B C" rules0 2 rfl rfl⟩

/-- C6: the output is the line `TERMINALS`, the terminal section (one line
per terminal string when the set is non-empty), a blank line, the line
`BINARIES`, and one `rule  frequency` line per stored rule; every line of
the first section is plain text and every line of the second carries a rule
and its frequency. -/
theorem c6_output_shape (st : GState) :
    outputLines st =
      OutLine.text "TERMINALS" :: joinedLines st.terminal
        ++ OutLine.blank :: OutLine.text "BINARIES" :: binLines st.binary ∧
    (st.terminal ≠ [] → joinedLines st.terminal = st.terminal.map OutLine.text) ∧
    (binLines st.binary).length = (st.binary.map (fun e => e.2.length)).sum ∧
    (∀ l ∈ joinedLines st.terminal, ∃ s, l = OutLine.text s) ∧
    (∀ l ∈ binLines st.binary, ∃ rule freq, l = OutLine.ruleFreq rule freq) := by
  refine ⟨rfl, ?_, binLines_length st.binary, joinedLines_text st.terminal,
    binLines_shape st.binary⟩
  intro h
  cases hts : st.terminal with
  | nil => exact absurd hts h
  | cons a ts => simp [joinedLines]

/-- Witness for C6 at a concrete state with a non-empty terminal set. -/
theorem c6_output_shape_witness :
    joinedLines (extractPass sentsMix).terminal =
      (extractPass sentsMix).terminal.map OutLine.text :=
  (c6_output_shape (extractPass sentsMix)).2.1 (by decide)

end AncPtb
